import Mathlib

/-!
Shallow embedding of `src/webcrawler.py` (the crawling core: `bfs_crawl`,
`dfs_crawl` and their helpers `extract_categories`, `keyword_heuristic_score`,
`log_error`), together with theorems settling the specification claims.

Modelling conventions:
* Machine strings are Lean `String`s; Python string primitives
  (`lower`, `strip`, `count`, `in`, `rstrip`, `<`) are given executable
  definitions on the underlying character lists.
* The Python tuple comparison used by `heapq` is the lexicographic order on
  `(Nat, String, Nat)` triples (score, url, depth).
* The external world (HTTP fetch + HTML parse via `urllib`/BeautifulSoup,
  `urljoin`, the `threading.Event` stop flag) is a parameter `World`:
  `fetch` returns either a parsed `Page` or the exception message,
  `resolve` is `urljoin`, and `stop n` is the value of
  `stop_event.is_set()` observed at the n-th poll.
* The `heapq` priority queue is modelled as a multiset of tuples:
  `heappush` inserts, `heappop` removes a least tuple under the tuple order.
  This is observationally equivalent to the binary heap, because equal
  tuples are indistinguishable.
* Side channels are made explicit as ghost logs in the state: `errors`
  models the `error_log.txt` appends of `log_error`; `progressLog` models
  the `progress_callback(len(visited), max_pages)` invocations; `fetchLog`
  records every `urllib.request.urlopen` attempt with the popped depth and
  whether fetch+parse succeeded.
* The loop is run on explicit fuel; all claims are proved for every fuel,
  hence in particular for the terminating run.
-/

namespace WebCrawler

/-- Python `s.lower()` (ASCII case folding). -/
def pyLower (s : String) : String :=
  String.mk (s.data.map Char.toLower)

/-- Python `s.strip()`: remove leading and trailing whitespace. -/
def pyStrip (s : String) : String :=
  String.mk
    (((s.data.dropWhile Char.isWhitespace).reverse.dropWhile Char.isWhitespace).reverse)

/-- Python `s.rstrip("/")`: remove every trailing slash character. -/
def rstripSlash (s : String) : String :=
  String.mk ((s.data.reverse.dropWhile (· == '/')).reverse)

/-- Does the string end with a slash character? -/
def endsWithSlash (s : String) : Bool :=
  s.data.getLast? == some '/'

/-- Python `str.count` (non-overlapping, left-to-right) on char lists.
`skip` is the number of characters still covered by the previous match,
within which no new match may start. -/
def countSkip (pat : List Char) : List Char → Nat → Nat
  | [], _ => 0
  | c :: rest, skip =>
    match skip with
    | s + 1 => countSkip pat rest s
    | 0 =>
      if pat.isPrefixOf (c :: rest) then 1 + countSkip pat rest (pat.length - 1)
      else countSkip pat rest 0

/-- Python `hay.count(pat)`: non-overlapping occurrences of `pat` in `hay`;
an empty pattern is counted `len(hay) + 1` times, as in Python. -/
def pyCount (hay pat : String) : Nat :=
  if pat.data.isEmpty then hay.data.length + 1
  else countSkip pat.data hay.data 0

/-- Source function `keyword_heuristic_score(content, keywords)`: lower-cases
the content and sums the occurrence counts of each lower-cased keyword. -/
def keyword_heuristic_score (content : String) (keywords : List String) : Nat :=
  keywords.foldl (fun score kw => score + pyCount (pyLower content) (pyLower kw)) 0

/-- Python `pat in s` membership on char lists: substring test. -/
def containsSub (pat : List Char) : List Char → Bool
  | [] => pat.isEmpty
  | c :: rest => pat.isPrefixOf (c :: rest) || containsSub pat rest

/-- Python `pat in s` on strings. -/
def strIn (pat s : String) : Bool :=
  containsSub pat.data s.data

/-- Per-page category dictionary: insertion-ordered association list from
category label to the links collected under it. -/
abbrev Cats := List (String × List String)

/-- Source function `extract_categories(soup)`: every heading/list-item text,
trimmed and lower-cased, of length at least 3, becomes a key mapped to `[]`
(re-registering an existing key is a no-op since every value is `[]`). -/
def extract_categories (headings : List String) : Cats :=
  headings.foldl
    (fun cats t =>
      let text := pyLower (pyStrip t)
      if 3 ≤ text.length ∧ ¬ cats.any (·.1 == text) then cats ++ [(text, [])]
      else cats)
    []

/-- Python `<` on strings: lexicographic comparison of code points. -/
def strLt : List Char → List Char → Bool
  | [], [] => false
  | [], _ :: _ => true
  | _ :: _, [] => false
  | a :: as, b :: bs =>
    if a.toNat < b.toNat then true
    else if a.toNat = b.toNat then strLt as bs
    else false

/-- Frontier item of `bfs_crawl`: the Python tuple `(score, link, depth)`. -/
abbrev QItem := Nat × String × Nat

/-- The Python tuple `<=` on `(score, url, depth)`: lexicographic. -/
def qLe (a b : QItem) : Bool :=
  if a.1 < b.1 then true
  else if a.1 = b.1 then
    if strLt a.2.1.data b.2.1.data then true
    else if a.2.1.data = b.2.1.data then decide (a.2.2 ≤ b.2.2)
    else false
  else false

/-- Least tuple among `x :: xs` under `qLe` (the earliest minimal one). -/
def minItem : QItem → List QItem → QItem
  | x, [] => x
  | x, y :: ys => minItem (if qLe x y then x else y) ys

/-- Operation `heapq.heappop` on the multiset view of the heap: remove and return a
least tuple under the Python tuple order. -/
def heappop (q : List QItem) : Option (QItem × List QItem) :=
  match q with
  | [] => none
  | x :: xs =>
    let m := minItem x xs
    some (m, q.erase m)

/-- An `<a href=...>` element as exposed by BeautifulSoup: the `href`
attribute and the visible anchor text (`tag.get_text()`). -/
structure Anchor where
  href : String
  text : String
deriving DecidableEq, Repr

/-- A successfully fetched and parsed page: the `get_text()` results of its
`h2`/`h3`/`h4`/`li` tags in document order, its anchors in document order,
and its full visible text (`soup.get_text()`). -/
structure Page where
  headings : List String
  anchors : List Anchor
  text : String
deriving DecidableEq, Repr

/-- The external collaborators of one run: `fetch` is
`urllib.request.urlopen` + BeautifulSoup (an exception is an `.error` with
the exception message), `resolve` is `urljoin`, and `stop n` is what
`stop_event.is_set()` returns at the n-th poll (`false` everywhere models an
absent or never-set stop event). -/
structure World where
  fetch : String → Except String Page
  resolve : String → String → String
  stop : Nat → Bool

/-- Per-run arguments of `bfs_crawl`/`dfs_crawl` other than the seed URL.
`keywords = []` models both a missing (`None`) and an empty keyword list —
both are falsy in Python; `hasProgress` is whether `progress_callback` was
supplied. -/
structure Config where
  maxPages : Nat
  maxDepth : Nat
  keywords : List String
  hasProgress : Bool
deriving DecidableEq, Repr

/-- Ghost record of one `urllib.request.urlopen` attempt: the popped URL,
the depth it was enqueued (and popped) with, and whether fetch+parse
succeeded. -/
structure FetchEntry where
  url : String
  depth : Nat
  ok : Bool
deriving DecidableEq, Repr

/-- State of one `bfs_crawl` run.  `errors`, `progressLog`, `fetchLog` are
ghost logs (newest entry first); `iter` counts executed loop iterations and
indexes the stop-event polls. -/
structure BfsState where
  queue : List QItem
  visited : List String
  categorized : Cats
  errors : List (String × String)
  progressLog : List (Nat × Nat)
  fetchLog : List FetchEntry
  iter : Nat
deriving DecidableEq, Repr

/-- State of one `dfs_crawl` run; the stack holds `(url, depth)` pairs,
most recently pushed first. -/
structure DfsState where
  stack : List (String × Nat)
  visited : List String
  categorized : Cats
  errors : List (String × String)
  progressLog : List (Nat × Nat)
  fetchLog : List FetchEntry
  iter : Nat
deriving DecidableEq, Repr

/-- Source line `score = keyword_heuristic_score(page_content, keywords) if keywords
else len(link)` from `bfs_crawl`. -/
def pushScore (pageText : String) (keywords : List String) (link : String) : Nat :=
  if keywords.isEmpty then link.length
  else keyword_heuristic_score pageText keywords

/-- The inner `for category in categories` loop: append `link` to every
category whose label occurs in the trimmed, lower-cased anchor text. -/
def addToCats (cats : Cats) (anchorText link : String) : Cats :=
  cats.map fun p =>
    if strIn p.1 (pyLower (pyStrip anchorText)) then (p.1, p.2 ++ [link]) else p

/-- The `for tag in soup.find_all("a", href=True)` loop of `bfs_crawl`:
resolve and strip each href; if the link is not yet visited, push
`(score, link, depth+1)` and record the link under every matching
category. -/
def bfsAnchors (w : World) (u : String) (d : Nat) (pageText : String)
    (keywords : List String) (visited : List String) :
    List Anchor → List QItem → Cats → List QItem × Cats
  | [], q, cats => (q, cats)
  | a :: rest, q, cats =>
    let link := rstripSlash (w.resolve u a.href)
    if link ∈ visited then bfsAnchors w u d pageText keywords visited rest q cats
    else
      bfsAnchors w u d pageText keywords visited rest
        ((pushScore pageText keywords link, link, d + 1) :: q)
        (addToCats cats a.text link)

/-- The `for tag in soup.find_all("a", href=True)` loop of `dfs_crawl`:
as for best-first search, but pushing `(link, depth+1)` with no score. -/
def dfsAnchors (w : World) (u : String) (d : Nat) (visited : List String) :
    List Anchor → List (String × Nat) → Cats → List (String × Nat) × Cats
  | [], st, cats => (st, cats)
  | a :: rest, st, cats =>
    let link := rstripSlash (w.resolve u a.href)
    if link ∈ visited then dfsAnchors w u d visited rest st cats
    else
      dfsAnchors w u d visited rest ((link, d + 1) :: st) (addToCats cats a.text link)

/-- Source line `categorized_urls.setdefault(category, []).extend(vs)`. -/
def setdefaultExtend (m : Cats) (k : String) (vs : List String) : Cats :=
  if m.any (·.1 == k) then m.map fun p => if p.1 == k then (p.1, p.2 ++ vs) else p
  else m ++ [(k, vs)]

/-- The `for category, urls in categories.items()` merge loop: every
non-empty per-page list is de-duplicated (`set(urls)`) and appended under
its category. -/
def mergeCats (m : Cats) (pageCats : Cats) : Cats :=
  pageCats.foldl
    (fun acc p => if p.2.isEmpty then acc else setdefaultExtend acc p.1 p.2.eraseDups)
    m

/-- Call `progress_callback(len(visited), max_pages)` when a callback was
supplied: record the invocation. -/
def pushProg (cfg : Config) (n : Nat) (log : List (Nat × Nat)) : List (Nat × Nat) :=
  if cfg.hasProgress then (n, cfg.maxPages) :: log else log

/-- The `try`/`except` body of `bfs_crawl` for a popped `(u, d)` that passed
the visited/depth checks, `rest` being the remaining frontier. -/
def bfsProcess (w : World) (cfg : Config) (s : BfsState) (u : String) (d : Nat)
    (rest : List QItem) : BfsState :=
  match w.fetch u with
  | .error msg =>
    { s with
      queue := rest
      errors := (u, msg) :: s.errors
      fetchLog := ⟨u, d, false⟩ :: s.fetchLog
      progressLog := pushProg cfg s.visited.length s.progressLog
      iter := s.iter + 1 }
  | .ok page =>
    let visited := u :: s.visited
    let qc := bfsAnchors w u d page.text cfg.keywords visited page.anchors rest
      (extract_categories page.headings)
    { queue := qc.1
      visited := visited
      categorized := mergeCats s.categorized qc.2
      errors := s.errors
      progressLog := pushProg cfg visited.length s.progressLog
      fetchLog := ⟨u, d, true⟩ :: s.fetchLog
      iter := s.iter + 1 }

/-- One iteration of the `while queue and len(visited) < max_pages` loop of
`bfs_crawl`; `none` means the loop terminates before this iteration runs. -/
def bfsStep (w : World) (cfg : Config) (s : BfsState) : Option BfsState :=
  match heappop s.queue with
  | none => none
  | some (item, rest) =>
    if cfg.maxPages ≤ s.visited.length then none
    else if w.stop s.iter then none
    else if item.2.1 ∈ s.visited ∨ cfg.maxDepth < item.2.2 then
      some { s with queue := rest, iter := s.iter + 1 }
    else some (bfsProcess w cfg s item.2.1 item.2.2 rest)

/-- The `while` loop of `bfs_crawl`, on explicit fuel. -/
def bfsLoop (w : World) (cfg : Config) : Nat → BfsState → BfsState
  | 0, s => s
  | fuel + 1, s =>
    match bfsStep w cfg s with
    | none => s
    | some s' => bfsLoop w cfg fuel s'

/-- Initial state of `bfs_crawl`: `queue = [(0, start_url, 0)]`, everything
else empty. -/
def initBfs (startUrl : String) : BfsState :=
  ⟨[(0, startUrl, 0)], [], [], [], [], [], 0⟩

/-- Final state of a `bfs_crawl` run. -/
def bfsRun (w : World) (cfg : Config) (fuel : Nat) (startUrl : String) : BfsState :=
  bfsLoop w cfg fuel (initBfs startUrl)

/-- Return value of `bfs_crawl`: the accumulated `categorized_urls`. -/
def bfs_crawl (w : World) (cfg : Config) (fuel : Nat) (startUrl : String) : Cats :=
  (bfsRun w cfg fuel startUrl).categorized

/-- The `try`/`except` body of `dfs_crawl`. -/
def dfsProcess (w : World) (cfg : Config) (s : DfsState) (u : String) (d : Nat)
    (rest : List (String × Nat)) : DfsState :=
  match w.fetch u with
  | .error msg =>
    { s with
      stack := rest
      errors := (u, msg) :: s.errors
      fetchLog := ⟨u, d, false⟩ :: s.fetchLog
      progressLog := pushProg cfg s.visited.length s.progressLog
      iter := s.iter + 1 }
  | .ok page =>
    let visited := u :: s.visited
    let sc := dfsAnchors w u d visited page.anchors rest
      (extract_categories page.headings)
    { stack := sc.1
      visited := visited
      categorized := mergeCats s.categorized sc.2
      errors := s.errors
      progressLog := pushProg cfg visited.length s.progressLog
      fetchLog := ⟨u, d, true⟩ :: s.fetchLog
      iter := s.iter + 1 }

/-- One iteration of the `while stack and len(visited) < max_pages` loop of
`dfs_crawl`; `stack.pop()` removes the most recently pushed pair. -/
def dfsStep (w : World) (cfg : Config) (s : DfsState) : Option DfsState :=
  match s.stack with
  | [] => none
  | (u, d) :: rest =>
    if cfg.maxPages ≤ s.visited.length then none
    else if w.stop s.iter then none
    else if u ∈ s.visited ∨ cfg.maxDepth < d then
      some { s with stack := rest, iter := s.iter + 1 }
    else some (dfsProcess w cfg s u d rest)

/-- The `while` loop of `dfs_crawl`, on explicit fuel. -/
def dfsLoop (w : World) (cfg : Config) : Nat → DfsState → DfsState
  | 0, s => s
  | fuel + 1, s =>
    match dfsStep w cfg s with
    | none => s
    | some s' => dfsLoop w cfg fuel s'

/-- Initial state of `dfs_crawl`: `stack = [(start_url, 0)]`. -/
def initDfs (startUrl : String) : DfsState :=
  ⟨[(startUrl, 0)], [], [], [], [], [], 0⟩

/-- Final state of a `dfs_crawl` run. -/
def dfsRun (w : World) (cfg : Config) (fuel : Nat) (startUrl : String) : DfsState :=
  dfsLoop w cfg fuel (initDfs startUrl)

/-- Return value of `dfs_crawl`: the accumulated `categorized_urls`. -/
def dfs_crawl (w : World) (cfg : Config) (fuel : Nat) (startUrl : String) : Cats :=
  (dfsRun w cfg fuel startUrl).categorized

/-- URLs whose fetch+parse succeeded, in log order (newest first). -/
def successUrls (log : List FetchEntry) : List String :=
  (log.filter (·.ok)).map (·.url)

/-- No fetch of a URL ever happens after a successful fetch of that URL:
in the newest-first log, an entry occurring before (hence later in time
than) a successful entry never shares its URL. -/
def noRefetch (log : List FetchEntry) : Prop :=
  ∀ l₁ l₂, log = l₁ ++ l₂ → ∀ e ∈ l₁, ∀ e' ∈ l₂, e'.ok = true → e.url ≠ e'.url

/-! ### Test fixtures (concrete worlds for witnesses and counterexamples) -/

/-- A 3-page linear chain `a → b → c`; every other URL fails to fetch. -/
def chainWorld : World where
  fetch u :=
    if u = "a" then .ok ⟨[], [⟨"b", ""⟩], ""⟩
    else if u = "b" then .ok ⟨[], [⟨"c", ""⟩], ""⟩
    else if u = "c" then .ok ⟨[], [], ""⟩
    else .error "404"
  resolve _ href := href
  stop _ := false

/-- maxPages 10, maxDepth 1, no keywords, progress callback supplied. -/
def chainCfg : Config := ⟨10, 1, [], true⟩

/-- Page `s` links to `b` twice; `b` has no links. -/
def dupWorld : World where
  fetch u :=
    if u = "s" then .ok ⟨[], [⟨"b", ""⟩, ⟨"b", ""⟩], ""⟩
    else if u = "b" then .ok ⟨[], [], ""⟩
    else .error "404"
  resolve _ href := href
  stop _ := false

/-- Page `s` links to `b` and then `a`; all pages have empty text, so the
keyword `"z"` scores every link 0. -/
def tieWorld : World where
  fetch u :=
    if u = "s" then .ok ⟨[], [⟨"b", ""⟩, ⟨"a", ""⟩], ""⟩
    else if u = "a" then .ok ⟨[], [], ""⟩
    else if u = "b" then .ok ⟨[], [], ""⟩
    else .error "404"
  resolve _ href := href
  stop _ := false

/-- maxPages 10, maxDepth 3, keyword list `["z"]`, progress supplied. -/
def tieCfg : Config := ⟨10, 3, ["z"], true⟩

/-- A single page whose URL ends in a slash, with no links. -/
def slashWorld : World where
  fetch u := if u = "a/" then .ok ⟨[], [], ""⟩ else .error "404"
  resolve _ href := href
  stop _ := false

/-- maxPages 10, maxDepth 3, no keywords, progress callback supplied. -/
def plainCfg : Config := ⟨10, 3, [], true⟩

/-- A world in which every fetch fails. -/
def failWorld : World where
  fetch _ := .error "invalid url"
  resolve _ href := href
  stop _ := false

/-- A world whose stop event is set from the start. -/
def stopWorld : World where
  fetch _ := .error "unreachable"
  resolve _ href := href
  stop _ := true

/-- An invalid configuration: maxPages 0. -/
def zeroCfg : Config := ⟨0, 3, [], true⟩

/-! ### Generic loop reasoning -/

/-- Any property preserved by `bfsStep` is an invariant of `bfsLoop`. -/
theorem bfsLoop_inv (w : World) (cfg : Config) (P : BfsState → Prop)
    (hstep : ∀ s s', bfsStep w cfg s = some s' → P s → P s') :
    ∀ fuel s, P s → P (bfsLoop w cfg fuel s) := by
  intro fuel
  induction fuel with
  | zero => intro s h; simpa [bfsLoop] using h
  | succ n ih =>
    intro s h
    cases hs : bfsStep w cfg s with
    | none => simpa [bfsLoop, hs] using h
    | some s' =>
      have : bfsLoop w cfg (n + 1) s = bfsLoop w cfg n s' := by
        simp [bfsLoop, hs]
      rw [this]
      exact ih s' (hstep s s' hs h)

/-- Any property preserved by `dfsStep` is an invariant of `dfsLoop`. -/
theorem dfsLoop_inv (w : World) (cfg : Config) (P : DfsState → Prop)
    (hstep : ∀ s s', dfsStep w cfg s = some s' → P s → P s') :
    ∀ fuel s, P s → P (dfsLoop w cfg fuel s) := by
  intro fuel
  induction fuel with
  | zero => intro s h; simpa [dfsLoop] using h
  | succ n ih =>
    intro s h
    cases hs : dfsStep w cfg s with
    | none => simpa [dfsLoop, hs] using h
    | some s' =>
      have : dfsLoop w cfg (n + 1) s = dfsLoop w cfg n s' := by
        simp [dfsLoop, hs]
      rw [this]
      exact ih s' (hstep s s' hs h)

/-- Case analysis of a successful `bfsStep`. -/
theorem bfsStep_eq_some {w : World} {cfg : Config} {s s' : BfsState}
    (h : bfsStep w cfg s = some s') :
    ∃ it rest, heappop s.queue = some (it, rest) ∧
      s.visited.length < cfg.maxPages ∧ w.stop s.iter = false ∧
      ((it.2.1 ∈ s.visited ∨ cfg.maxDepth < it.2.2) ∧
          s' = { s with queue := rest, iter := s.iter + 1 } ∨
        it.2.1 ∉ s.visited ∧ it.2.2 ≤ cfg.maxDepth ∧
          s' = bfsProcess w cfg s it.2.1 it.2.2 rest) := by
  unfold bfsStep at h
  cases hp : heappop s.queue with
  | none => rw [hp] at h; cases h
  | some pr =>
    obtain ⟨it, rest⟩ := pr
    rw [hp] at h
    by_cases h1 : cfg.maxPages ≤ s.visited.length
    · simp [h1] at h
    · by_cases h2 : w.stop s.iter = true
      · simp [h1, h2] at h
      · by_cases h3 : it.2.1 ∈ s.visited ∨ cfg.maxDepth < it.2.2
        · refine ⟨it, rest, rfl, by omega, by simpa using h2, Or.inl ⟨h3, ?_⟩⟩
          simp [h1, h2, h3] at h
          exact h.symm
        · refine ⟨it, rest, rfl, by omega, by simpa using h2,
            Or.inr ⟨fun hm => h3 (Or.inl hm), by omega, ?_⟩⟩
          simp [h1, h2, h3] at h
          exact h.symm

/-- Case analysis of a successful `dfsStep`. -/
theorem dfsStep_eq_some {w : World} {cfg : Config} {s s' : DfsState}
    (h : dfsStep w cfg s = some s') :
    ∃ u d rest, s.stack = (u, d) :: rest ∧
      s.visited.length < cfg.maxPages ∧ w.stop s.iter = false ∧
      ((u ∈ s.visited ∨ cfg.maxDepth < d) ∧
          s' = { s with stack := rest, iter := s.iter + 1 } ∨
        u ∉ s.visited ∧ d ≤ cfg.maxDepth ∧ s' = dfsProcess w cfg s u d rest) := by
  unfold dfsStep at h
  cases hst : s.stack with
  | nil => rw [hst] at h; cases h
  | cons p rest =>
    obtain ⟨u, d⟩ := p
    rw [hst] at h
    by_cases h1 : cfg.maxPages ≤ s.visited.length
    · simp [h1] at h
    · by_cases h2 : w.stop s.iter = true
      · simp [h1, h2] at h
      · by_cases h3 : u ∈ s.visited ∨ cfg.maxDepth < d
        · refine ⟨u, d, rest, rfl, by omega, by simpa using h2, Or.inl ⟨h3, ?_⟩⟩
          simp [h1, h2, h3] at h
          exact h.symm
        · refine ⟨u, d, rest, rfl, by omega, by simpa using h2,
            Or.inr ⟨fun hm => h3 (Or.inl hm), by omega, ?_⟩⟩
          simp [h1, h2, h3] at h
          exact h.symm

/-! ### Shape of one processed iteration -/

/-- Unfolding of `bfsProcess` on a failing fetch: the error branch of the `try`. -/
theorem bfsProcess_error {w : World} (cfg : Config) (s : BfsState) {u : String}
    (d : Nat) (rest : List QItem) {msg : String} (hf : w.fetch u = .error msg) :
    bfsProcess w cfg s u d rest =
      { s with
        queue := rest
        errors := (u, msg) :: s.errors
        fetchLog := ⟨u, d, false⟩ :: s.fetchLog
        progressLog := pushProg cfg s.visited.length s.progressLog
        iter := s.iter + 1 } := by
  unfold bfsProcess
  rw [hf]

/-- Unfolding of `dfsProcess` on a failing fetch: the error branch of the `try`. -/
theorem dfsProcess_error {w : World} (cfg : Config) (s : DfsState) {u : String}
    (d : Nat) (rest : List (String × Nat)) {msg : String}
    (hf : w.fetch u = .error msg) :
    dfsProcess w cfg s u d rest =
      { s with
        stack := rest
        errors := (u, msg) :: s.errors
        fetchLog := ⟨u, d, false⟩ :: s.fetchLog
        progressLog := pushProg cfg s.visited.length s.progressLog
        iter := s.iter + 1 } := by
  unfold dfsProcess
  rw [hf]

/-- A processed iteration either leaves the visited set unchanged and logs
a failed fetch, or adds exactly the popped URL and logs a successful one. -/
theorem bfsProcess_log_visited (w : World) (cfg : Config) (s : BfsState)
    (u : String) (d : Nat) (rest : List QItem) :
    (bfsProcess w cfg s u d rest).fetchLog = ⟨u, d, false⟩ :: s.fetchLog ∧
      (bfsProcess w cfg s u d rest).visited = s.visited ∧
      (∃ msg, w.fetch u = .error msg) ∨
    (bfsProcess w cfg s u d rest).fetchLog = ⟨u, d, true⟩ :: s.fetchLog ∧
      (bfsProcess w cfg s u d rest).visited = u :: s.visited ∧
      ∃ page, w.fetch u = .ok page := by
  unfold bfsProcess
  cases hf : w.fetch u with
  | error msg => exact Or.inl ⟨rfl, rfl, msg, rfl⟩
  | ok page => exact Or.inr ⟨rfl, rfl, page, rfl⟩

/-- Analogue for `dfsProcess` of `bfsProcess_log_visited`. -/
theorem dfsProcess_log_visited (w : World) (cfg : Config) (s : DfsState)
    (u : String) (d : Nat) (rest : List (String × Nat)) :
    (dfsProcess w cfg s u d rest).fetchLog = ⟨u, d, false⟩ :: s.fetchLog ∧
      (dfsProcess w cfg s u d rest).visited = s.visited ∧
      (∃ msg, w.fetch u = .error msg) ∨
    (dfsProcess w cfg s u d rest).fetchLog = ⟨u, d, true⟩ :: s.fetchLog ∧
      (dfsProcess w cfg s u d rest).visited = u :: s.visited ∧
      ∃ page, w.fetch u = .ok page := by
  unfold dfsProcess
  cases hf : w.fetch u with
  | error msg => exact Or.inl ⟨rfl, rfl, msg, rfl⟩
  | ok page => exact Or.inr ⟨rfl, rfl, page, rfl⟩

/-- The queue after a processed iteration: the popped remainder, possibly
extended by the anchor loop of the fetched page. -/
theorem bfsProcess_queue (w : World) (cfg : Config) (s : BfsState)
    (u : String) (d : Nat) (rest : List QItem) :
    (bfsProcess w cfg s u d rest).queue = rest ∨
    ∃ page, w.fetch u = .ok page ∧
      (bfsProcess w cfg s u d rest).queue =
        (bfsAnchors w u d page.text cfg.keywords (u :: s.visited) page.anchors rest
          (extract_categories page.headings)).1 := by
  unfold bfsProcess
  cases hf : w.fetch u with
  | error msg => exact Or.inl rfl
  | ok page => exact Or.inr ⟨page, rfl, rfl⟩

/-- The stack after a processed iteration of `dfs_crawl`. -/
theorem dfsProcess_stack (w : World) (cfg : Config) (s : DfsState)
    (u : String) (d : Nat) (rest : List (String × Nat)) :
    (dfsProcess w cfg s u d rest).stack = rest ∨
    ∃ page, w.fetch u = .ok page ∧
      (dfsProcess w cfg s u d rest).stack =
        (dfsAnchors w u d (u :: s.visited) page.anchors rest
          (extract_categories page.headings)).1 := by
  unfold dfsProcess
  cases hf : w.fetch u with
  | error msg => exact Or.inl rfl
  | ok page => exact Or.inr ⟨page, rfl, rfl⟩

/-- A processed iteration records exactly one progress invocation (when a
callback is supplied) alongside its fetch-log entry. -/
theorem bfsProcess_progress (w : World) (cfg : Config) (s : BfsState)
    (u : String) (d : Nat) (rest : List QItem) :
    ∃ n b, (bfsProcess w cfg s u d rest).progressLog =
        pushProg cfg n s.progressLog ∧
      (bfsProcess w cfg s u d rest).fetchLog = ⟨u, d, b⟩ :: s.fetchLog := by
  unfold bfsProcess
  cases hf : w.fetch u with
  | error msg => exact ⟨s.visited.length, false, rfl, rfl⟩
  | ok page => exact ⟨s.visited.length + 1, true, rfl, rfl⟩

/-- Analogue for `dfsProcess` of `bfsProcess_progress`. -/
theorem dfsProcess_progress (w : World) (cfg : Config) (s : DfsState)
    (u : String) (d : Nat) (rest : List (String × Nat)) :
    ∃ n b, (dfsProcess w cfg s u d rest).progressLog =
        pushProg cfg n s.progressLog ∧
      (dfsProcess w cfg s u d rest).fetchLog = ⟨u, d, b⟩ :: s.fetchLog := by
  unfold dfsProcess
  cases hf : w.fetch u with
  | error msg => exact ⟨s.visited.length, false, rfl, rfl⟩
  | ok page => exact ⟨s.visited.length + 1, true, rfl, rfl⟩

/-! ### The tuple order of the best-first frontier -/

theorem charToNat_inj {a b : Char} (h : a.toNat = b.toNat) : a = b := by
  have := congrArg Char.ofNat h
  rwa [Char.ofNat_toNat, Char.ofNat_toNat] at this

theorem strLt_irrefl : ∀ l : List Char, strLt l l = false
  | [] => rfl
  | c :: rest => by simp [strLt, strLt_irrefl rest]

theorem strLt_total : ∀ a b : List Char,
    strLt a b = true ∨ strLt b a = true ∨ a = b
  | [], [] => Or.inr (Or.inr rfl)
  | [], _ :: _ => Or.inl rfl
  | _ :: _, [] => Or.inr (Or.inl rfl)
  | a :: as, b :: bs => by
    rcases Nat.lt_trichotomy a.toNat b.toNat with h | h | h
    · exact Or.inl (by simp [strLt, h])
    · rcases strLt_total as bs with h' | h' | h'
      · exact Or.inl (by simp [strLt, h, h'])
      · exact Or.inr (Or.inl (by simp [strLt, h.symm, h']))
      · exact Or.inr (Or.inr (by rw [charToNat_inj h, h']))
    · exact Or.inr (Or.inl (by simp [strLt, h]))

theorem strLt_trans : ∀ a b c : List Char,
    strLt a b = true → strLt b c = true → strLt a c = true
  | [], _ :: _, _ :: _, _, _ => rfl
  | a :: as, b :: bs, c :: cs, hab, hbc => by
    simp only [strLt] at hab hbc ⊢
    by_cases h1 : a.toNat < b.toNat <;> by_cases h2 : b.toNat < c.toNat
    · simp [show a.toNat < c.toNat by omega]
    · simp [h2] at hbc
      by_cases h3 : b.toNat = c.toNat
      · simp [show a.toNat < c.toNat by omega]
      · simp [h3] at hbc
    · simp [h1] at hab
      by_cases h3 : a.toNat = b.toNat
      · simp [show a.toNat < c.toNat by omega]
      · simp [h3] at hab
    · simp [h1] at hab
      simp [h2] at hbc
      by_cases h3 : a.toNat = b.toNat
      · by_cases h4 : b.toNat = c.toNat
        · simp only [h3, h4] at hab hbc ⊢
          simp [strLt_trans as bs cs (by simpa using hab) (by simpa using hbc),
            Nat.lt_irrefl]
        · simp [h4] at hbc
      · simp [h3] at hab

/-- Unfolding of `qLe` to its logical content. -/
theorem qLe_iff (a b : QItem) :
    qLe a b = true ↔
      a.1 < b.1 ∨ a.1 = b.1 ∧ (strLt a.2.1.data b.2.1.data = true ∨
        a.2.1.data = b.2.1.data ∧ a.2.2 ≤ b.2.2) := by
  unfold qLe
  split_ifs with h1 h2 h3 h4 <;> simp_all

theorem qLe_refl (a : QItem) : qLe a a = true := by
  simp [qLe_iff]

theorem qLe_total (a b : QItem) : qLe a b = true ∨ qLe b a = true := by
  rcases Nat.lt_trichotomy a.1 b.1 with h | h | h
  · exact Or.inl (by simp [qLe_iff, h])
  · rcases strLt_total a.2.1.data b.2.1.data with h' | h' | h'
    · exact Or.inl (by simp [qLe_iff, h, h'])
    · exact Or.inr (by simp [qLe_iff, h.symm, h'])
    · rcases Nat.le_total a.2.2 b.2.2 with h'' | h''
      · exact Or.inl (by simp [qLe_iff, h, h', h''])
      · exact Or.inr (by simp [qLe_iff, h.symm, h'.symm, h''])
  · exact Or.inr (by simp [qLe_iff, h])

theorem qLe_trans {a b c : QItem} (hab : qLe a b = true) (hbc : qLe b c = true) :
    qLe a c = true := by
  rw [qLe_iff] at hab hbc ⊢
  rcases hab with h | ⟨h1, h⟩
  · rcases hbc with h' | ⟨h1', _⟩
    · exact Or.inl (by omega)
    · exact Or.inl (by omega)
  · rcases hbc with h' | ⟨h1', h''⟩
    · exact Or.inl (by omega)
    · refine Or.inr ⟨by omega, ?_⟩
      rcases h with h | ⟨heq, hd⟩
      · rcases h'' with h'' | ⟨heq', _⟩
        · exact Or.inl (strLt_trans _ _ _ h h'')
        · exact Or.inl (heq' ▸ h)
      · rcases h'' with h'' | ⟨heq', hd'⟩
        · exact Or.inl (heq ▸ h'')
        · exact Or.inr ⟨heq.trans heq', by omega⟩

theorem minItem_mem : ∀ (xs : List QItem) (x : QItem), minItem x xs ∈ x :: xs := by
  intro xs
  induction xs with
  | nil => intro x; simp [minItem]
  | cons y ys ih =>
    intro x
    have hmin : minItem x (y :: ys) = minItem (if qLe x y then x else y) ys := rfl
    rw [hmin]
    by_cases hq : qLe x y = true
    · rw [if_pos hq]
      rcases List.mem_cons.mp (ih x) with h | h
      · rw [h]; exact List.mem_cons_self _ _
      · exact List.mem_cons_of_mem _ (List.mem_cons_of_mem _ h)
    · rw [if_neg hq]
      rcases List.mem_cons.mp (ih y) with h | h
      · rw [h]; exact List.mem_cons_of_mem _ (List.mem_cons_self _ _)
      · exact List.mem_cons_of_mem _ (List.mem_cons_of_mem _ h)

theorem minItem_le : ∀ (xs : List QItem) (x y : QItem),
    y ∈ x :: xs → qLe (minItem x xs) y = true := by
  intro xs
  induction xs with
  | nil =>
    intro x y hy
    rcases List.mem_cons.mp hy with h | h
    · subst h; exact qLe_refl _
    · cases h
  | cons z zs ih =>
    intro x y hy
    have hmin : minItem x (z :: zs) = minItem (if qLe x z then x else z) zs := rfl
    rw [hmin]
    have hwx : qLe (if qLe x z = true then x else z) x = true := by
      by_cases hq : qLe x z = true
      · rw [if_pos hq]; exact qLe_refl x
      · rw [if_neg hq]; exact (qLe_total x z).resolve_left hq
    have hwz : qLe (if qLe x z = true then x else z) z = true := by
      by_cases hq : qLe x z = true
      · rw [if_pos hq]; exact hq
      · rw [if_neg hq]; exact qLe_refl z
    have hminw : qLe (minItem (if qLe x z = true then x else z) zs)
        (if qLe x z = true then x else z) = true :=
      ih _ _ (List.mem_cons_self _ _)
    rcases List.mem_cons.mp hy with h | hy'
    · subst h; exact qLe_trans hminw hwx
    · rcases List.mem_cons.mp hy' with h | h
      · subst h; exact qLe_trans hminw hwz
      · exact ih _ y (List.mem_cons_of_mem _ h)

/-- Function `heappop` returns an element of the heap that is `qLe`-below every
element, and removes one copy of it. -/
theorem heappop_spec {q : List QItem} {m : QItem} {rest : List QItem}
    (h : heappop q = some (m, rest)) :
    m ∈ q ∧ rest = q.erase m ∧ ∀ x ∈ q, qLe m x = true := by
  cases q with
  | nil => cases h
  | cons x xs =>
    simp only [heappop, Option.some.injEq, Prod.mk.injEq] at h
    obtain ⟨hm, hrest⟩ := h
    subst hm
    exact ⟨minItem_mem xs x, hrest.symm, fun y hy => minItem_le xs x y hy⟩

/-- The remainder of a `heappop` is a sub-collection of the heap. -/
theorem heappop_rest_subset {q : List QItem} {m : QItem} {rest : List QItem}
    (h : heappop q = some (m, rest)) : rest ⊆ q := by
  obtain ⟨_, hrest, _⟩ := heappop_spec h
  exact hrest ▸ List.erase_subset _ _

/-! ### URL normalization and the anchor loops -/

theorem dropWhile_head?_false {p : Char → Bool} :
    ∀ (l : List Char) (c : Char), (l.dropWhile p).head? = some c → p c = false := by
  intro l
  induction l with
  | nil => intro c h; cases h
  | cons a t ih =>
    intro c h
    rw [List.dropWhile_cons] at h
    by_cases hp : p a = true
    · rw [if_pos hp] at h
      exact ih c h
    · rw [if_neg hp] at h
      simp only [List.head?_cons, Option.some.injEq] at h
      subst h
      simpa using hp

/-- Any `rstrip("/")`-normalized URL ends in no slash. -/
theorem endsWithSlash_rstripSlash (s : String) :
    endsWithSlash (rstripSlash s) = false := by
  have hdata : (rstripSlash s).data = (s.data.reverse.dropWhile (· == '/')).reverse := rfl
  unfold endsWithSlash
  rw [hdata, List.getLast?_reverse]
  cases hh : (s.data.reverse.dropWhile (· == '/')).head? with
  | none => rfl
  | some c => exact dropWhile_head?_false _ _ hh

/-- Every item in the queue produced by the anchor loop of `bfs_crawl` is
either an old item, or a freshly pushed one: scored by
`keyword_heuristic_score`-or-length, at depth `d + 1`, slash-stripped, and
not yet visited. -/
theorem bfsAnchors_queue_sound (w : World) (u : String) (d : Nat)
    (pageText : String) (keywords : List String) (visited : List String) :
    ∀ (anchors : List Anchor) (q : List QItem) (cats : Cats) (x : QItem),
      x ∈ (bfsAnchors w u d pageText keywords visited anchors q cats).1 →
      x ∈ q ∨ x.1 = pushScore pageText keywords x.2.1 ∧ x.2.2 = d + 1 ∧
        endsWithSlash x.2.1 = false ∧ x.2.1 ∉ visited := by
  intro anchors
  induction anchors with
  | nil => intro q cats x hx; exact Or.inl hx
  | cons a rest ih =>
    intro q cats x hx
    by_cases hv : rstripSlash (w.resolve u a.href) ∈ visited
    · have heq : bfsAnchors w u d pageText keywords visited (a :: rest) q cats
          = bfsAnchors w u d pageText keywords visited rest q cats := by
        simp only [bfsAnchors]
        rw [if_pos hv]
      rw [heq] at hx
      exact ih q cats x hx
    · have heq : bfsAnchors w u d pageText keywords visited (a :: rest) q cats
          = bfsAnchors w u d pageText keywords visited rest
              ((pushScore pageText keywords (rstripSlash (w.resolve u a.href)),
                rstripSlash (w.resolve u a.href), d + 1) :: q)
              (addToCats cats a.text (rstripSlash (w.resolve u a.href))) := by
        simp only [bfsAnchors]
        rw [if_neg hv]
      rw [heq] at hx
      rcases ih _ _ x hx with h | h
      · rcases List.mem_cons.mp h with h | h
        · subst h
          exact Or.inr ⟨rfl, rfl, endsWithSlash_rstripSlash _, hv⟩
        · exact Or.inl h
      · exact Or.inr h

/-- The anchor loop of `bfs_crawl` never removes queue items. -/
theorem bfsAnchors_queue_mono (w : World) (u : String) (d : Nat)
    (pageText : String) (keywords : List String) (visited : List String) :
    ∀ (anchors : List Anchor) (q : List QItem) (cats : Cats) (x : QItem),
      x ∈ q → x ∈ (bfsAnchors w u d pageText keywords visited anchors q cats).1 := by
  intro anchors
  induction anchors with
  | nil => intro q cats x hx; exact hx
  | cons a rest ih =>
    intro q cats x hx
    by_cases hv : rstripSlash (w.resolve u a.href) ∈ visited
    · have heq : bfsAnchors w u d pageText keywords visited (a :: rest) q cats
          = bfsAnchors w u d pageText keywords visited rest q cats := by
        simp only [bfsAnchors]
        rw [if_pos hv]
      rw [heq]
      exact ih q cats x hx
    · have heq : bfsAnchors w u d pageText keywords visited (a :: rest) q cats
          = bfsAnchors w u d pageText keywords visited rest
              ((pushScore pageText keywords (rstripSlash (w.resolve u a.href)),
                rstripSlash (w.resolve u a.href), d + 1) :: q)
              (addToCats cats a.text (rstripSlash (w.resolve u a.href))) := by
        simp only [bfsAnchors]
        rw [if_neg hv]
      rw [heq]
      exact ih _ _ x (List.mem_cons_of_mem _ hx)

/-- Every unvisited discovered link of the page is pushed by the anchor
loop of `bfs_crawl`, with its score and depth `d + 1`. -/
theorem bfsAnchors_queue_complete (w : World) (u : String) (d : Nat)
    (pageText : String) (keywords : List String) (visited : List String) :
    ∀ (anchors : List Anchor) (q : List QItem) (cats : Cats) (a : Anchor),
      a ∈ anchors → rstripSlash (w.resolve u a.href) ∉ visited →
      (pushScore pageText keywords (rstripSlash (w.resolve u a.href)),
        rstripSlash (w.resolve u a.href), d + 1) ∈
        (bfsAnchors w u d pageText keywords visited anchors q cats).1 := by
  intro anchors
  induction anchors with
  | nil => intro q cats a ha; cases ha
  | cons b rest ih =>
    intro q cats a ha hnv
    rcases List.mem_cons.mp ha with hab | ha'
    · subst hab
      have heq : bfsAnchors w u d pageText keywords visited (a :: rest) q cats
          = bfsAnchors w u d pageText keywords visited rest
              ((pushScore pageText keywords (rstripSlash (w.resolve u a.href)),
                rstripSlash (w.resolve u a.href), d + 1) :: q)
              (addToCats cats a.text (rstripSlash (w.resolve u a.href))) := by
        simp only [bfsAnchors]
        rw [if_neg hnv]
      rw [heq]
      exact bfsAnchors_queue_mono w u d pageText keywords visited rest _ _ _
        (List.mem_cons_self _ _)
    · by_cases hv : rstripSlash (w.resolve u b.href) ∈ visited
      · have heq : bfsAnchors w u d pageText keywords visited (b :: rest) q cats
            = bfsAnchors w u d pageText keywords visited rest q cats := by
          simp only [bfsAnchors]
          rw [if_pos hv]
        rw [heq]
        exact ih q cats a ha' hnv
      · have heq : bfsAnchors w u d pageText keywords visited (b :: rest) q cats
            = bfsAnchors w u d pageText keywords visited rest
                ((pushScore pageText keywords (rstripSlash (w.resolve u b.href)),
                  rstripSlash (w.resolve u b.href), d + 1) :: q)
                (addToCats cats b.text (rstripSlash (w.resolve u b.href))) := by
          simp only [bfsAnchors]
          rw [if_neg hv]
        rw [heq]
        exact ih _ _ a ha' hnv

/-- Every item in the stack produced by the anchor loop of `dfs_crawl` is
either an old item, or a freshly pushed one at depth `d + 1`,
slash-stripped and not yet visited. -/
theorem dfsAnchors_stack_sound (w : World) (u : String) (d : Nat)
    (visited : List String) :
    ∀ (anchors : List Anchor) (st : List (String × Nat)) (cats : Cats)
      (x : String × Nat),
      x ∈ (dfsAnchors w u d visited anchors st cats).1 →
      x ∈ st ∨ x.2 = d + 1 ∧ endsWithSlash x.1 = false ∧ x.1 ∉ visited := by
  intro anchors
  induction anchors with
  | nil => intro st cats x hx; exact Or.inl hx
  | cons a rest ih =>
    intro st cats x hx
    by_cases hv : rstripSlash (w.resolve u a.href) ∈ visited
    · have heq : dfsAnchors w u d visited (a :: rest) st cats
          = dfsAnchors w u d visited rest st cats := by
        simp only [dfsAnchors]
        rw [if_pos hv]
      rw [heq] at hx
      exact ih st cats x hx
    · have heq : dfsAnchors w u d visited (a :: rest) st cats
          = dfsAnchors w u d visited rest
              ((rstripSlash (w.resolve u a.href), d + 1) :: st)
              (addToCats cats a.text (rstripSlash (w.resolve u a.href))) := by
        simp only [dfsAnchors]
        rw [if_neg hv]
      rw [heq] at hx
      rcases ih _ _ x hx with h | h
      · rcases List.mem_cons.mp h with h | h
        · subst h
          exact Or.inr ⟨rfl, endsWithSlash_rstripSlash _, hv⟩
        · exact Or.inl h
      · exact Or.inr h

/-! ### Run-level invariants -/

theorem bfsStep_visited_le {w : World} {cfg : Config} {s s' : BfsState}
    (h : bfsStep w cfg s = some s') : s'.visited.length ≤ cfg.maxPages := by
  obtain ⟨it, rest, hpop, hlen, hstop, hcase⟩ := bfsStep_eq_some h
  rcases hcase with ⟨_, rfl⟩ | ⟨_, _, rfl⟩
  · simpa using Nat.le_of_lt hlen
  · rcases bfsProcess_log_visited w cfg s it.2.1 it.2.2 rest with ⟨_, hv, _⟩ | ⟨_, hv, _⟩
    · rw [hv]; omega
    · rw [hv]; simp; omega

theorem dfsStep_visited_le {w : World} {cfg : Config} {s s' : DfsState}
    (h : dfsStep w cfg s = some s') : s'.visited.length ≤ cfg.maxPages := by
  obtain ⟨u, d, rest, hst, hlen, hstop, hcase⟩ := dfsStep_eq_some h
  rcases hcase with ⟨_, rfl⟩ | ⟨_, _, rfl⟩
  · simpa using Nat.le_of_lt hlen
  · rcases dfsProcess_log_visited w cfg s u d rest with ⟨_, hv, _⟩ | ⟨_, hv, _⟩
    · rw [hv]; omega
    · rw [hv]; simp; omega

/-- The visited set never outgrows `max_pages` in a best-first run. -/
theorem bfsRun_visited_le (w : World) (cfg : Config) (fuel : Nat)
    (startUrl : String) : (bfsRun w cfg fuel startUrl).visited.length ≤ cfg.maxPages :=
  bfsLoop_inv w cfg (fun s => s.visited.length ≤ cfg.maxPages)
    (fun _ _ h _ => bfsStep_visited_le h) fuel _ (Nat.zero_le _)

/-- The visited set never outgrows `max_pages` in a depth-first run. -/
theorem dfsRun_visited_le (w : World) (cfg : Config) (fuel : Nat)
    (startUrl : String) : (dfsRun w cfg fuel startUrl).visited.length ≤ cfg.maxPages :=
  dfsLoop_inv w cfg (fun s => s.visited.length ≤ cfg.maxPages)
    (fun _ _ h _ => dfsStep_visited_le h) fuel _ (Nat.zero_le _)

theorem bfsStep_depth_le {w : World} {cfg : Config} {s s' : BfsState}
    (h : bfsStep w cfg s = some s')
    (hP : ∀ e ∈ s.fetchLog, e.depth ≤ cfg.maxDepth) :
    ∀ e ∈ s'.fetchLog, e.depth ≤ cfg.maxDepth := by
  obtain ⟨it, rest, hpop, hlen, hstop, hcase⟩ := bfsStep_eq_some h
  rcases hcase with ⟨_, rfl⟩ | ⟨_, hd, rfl⟩
  · simpa using hP
  · rcases bfsProcess_log_visited w cfg s it.2.1 it.2.2 rest with ⟨hl, _, _⟩ | ⟨hl, _, _⟩ <;>
      rw [hl] <;> intro e he <;> rcases List.mem_cons.mp he with rfl | he'
    · exact hd
    · exact hP e he'
    · exact hd
    · exact hP e he'

theorem dfsStep_depth_le {w : World} {cfg : Config} {s s' : DfsState}
    (h : dfsStep w cfg s = some s')
    (hP : ∀ e ∈ s.fetchLog, e.depth ≤ cfg.maxDepth) :
    ∀ e ∈ s'.fetchLog, e.depth ≤ cfg.maxDepth := by
  obtain ⟨u, d, rest, hst, hlen, hstop, hcase⟩ := dfsStep_eq_some h
  rcases hcase with ⟨_, rfl⟩ | ⟨_, hd, rfl⟩
  · simpa using hP
  · rcases dfsProcess_log_visited w cfg s u d rest with ⟨hl, _, _⟩ | ⟨hl, _, _⟩ <;>
      rw [hl] <;> intro e he <;> rcases List.mem_cons.mp he with rfl | he'
    · exact hd
    · exact hP e he'
    · exact hd
    · exact hP e he'

/-- No fetch is ever attempted at a depth beyond `max_depth` (best-first). -/
theorem bfsRun_depth_le (w : World) (cfg : Config) (fuel : Nat)
    (startUrl : String) :
    ∀ e ∈ (bfsRun w cfg fuel startUrl).fetchLog, e.depth ≤ cfg.maxDepth :=
  bfsLoop_inv w cfg (fun s => ∀ e ∈ s.fetchLog, e.depth ≤ cfg.maxDepth)
    (fun _ _ h hP => bfsStep_depth_le h hP) fuel _ (by intro e he; cases he)

/-- No fetch is ever attempted at a depth beyond `max_depth` (depth-first). -/
theorem dfsRun_depth_le (w : World) (cfg : Config) (fuel : Nat)
    (startUrl : String) :
    ∀ e ∈ (dfsRun w cfg fuel startUrl).fetchLog, e.depth ≤ cfg.maxDepth :=
  dfsLoop_inv w cfg (fun s => ∀ e ∈ s.fetchLog, e.depth ≤ cfg.maxDepth)
    (fun _ _ h hP => dfsStep_depth_le h hP) fuel _ (by intro e he; cases he)

theorem mem_successUrls {log : List FetchEntry} {e : FetchEntry}
    (he : e ∈ log) (hok : e.ok = true) : e.url ∈ successUrls log :=
  List.mem_map.mpr ⟨e, List.mem_filter.mpr ⟨he, by simp [hok]⟩, rfl⟩

theorem noRefetch_cons {log : List FetchEntry} {e₀ : FetchEntry}
    (h : noRefetch log) (h₀ : ∀ e' ∈ log, e'.ok = true → e₀.url ≠ e'.url) :
    noRefetch (e₀ :: log) := by
  intro l₁ l₂ hsplit e he e' he' hok
  cases l₁ with
  | nil => cases he
  | cons a t =>
    rw [List.cons_append] at hsplit
    injection hsplit with h1 h2
    rcases List.mem_cons.mp he with rfl | he''
    · rw [← h1]
      exact h₀ e' (by rw [h2]; exact List.mem_append_right t he') hok
    · exact h t l₂ h2 e he'' e' he' hok

/-- The bundled dedup invariant: the visited list has no duplicates, the
successfully fetched URLs are exactly the visited ones (newest first), and
no URL is fetched again after a successful fetch. -/
def DedupInv (visited : List String) (log : List FetchEntry) : Prop :=
  visited.Nodup ∧ successUrls log = visited ∧ noRefetch log

theorem bfsStep_dedup {w : World} {cfg : Config} {s s' : BfsState}
    (h : bfsStep w cfg s = some s') (hP : DedupInv s.visited s.fetchLog) :
    DedupInv s'.visited s'.fetchLog := by
  obtain ⟨hnd, hsu, hnr⟩ := hP
  obtain ⟨it, rest, hpop, hlen, hstop, hcase⟩ := bfsStep_eq_some h
  rcases hcase with ⟨_, rfl⟩ | ⟨hnv, _, rfl⟩
  · exact ⟨hnd, hsu, hnr⟩
  · have hfresh : ∀ e' ∈ s.fetchLog, e'.ok = true →
        (⟨it.2.1, it.2.2, false⟩ : FetchEntry).url ≠ e'.url := by
      intro e' he' hok heq
      have heq' : it.2.1 = e'.url := heq
      have hmem : e'.url ∈ s.visited := hsu ▸ mem_successUrls he' hok
      exact hnv (by rw [heq']; exact hmem)
    rcases bfsProcess_log_visited w cfg s it.2.1 it.2.2 rest with
      ⟨hl, hv, _⟩ | ⟨hl, hv, _⟩
    · refine ⟨hv ▸ hnd, ?_, ?_⟩
      · rw [hl, hv]
        simpa [successUrls, List.filter_cons] using hsu
      · rw [hl]
        exact noRefetch_cons hnr hfresh
    · refine ⟨?_, ?_, ?_⟩
      · rw [hv]
        exact List.nodup_cons.mpr ⟨hnv, hnd⟩
      · rw [hl, hv]
        simpa [successUrls, List.filter_cons] using hsu
      · rw [hl]
        exact noRefetch_cons hnr hfresh

theorem dfsStep_dedup {w : World} {cfg : Config} {s s' : DfsState}
    (h : dfsStep w cfg s = some s') (hP : DedupInv s.visited s.fetchLog) :
    DedupInv s'.visited s'.fetchLog := by
  obtain ⟨hnd, hsu, hnr⟩ := hP
  obtain ⟨u, d, rest, hst, hlen, hstop, hcase⟩ := dfsStep_eq_some h
  rcases hcase with ⟨_, rfl⟩ | ⟨hnv, _, rfl⟩
  · exact ⟨hnd, hsu, hnr⟩
  · have hfresh : ∀ e' ∈ s.fetchLog, e'.ok = true →
        (⟨u, d, false⟩ : FetchEntry).url ≠ e'.url := by
      intro e' he' hok heq
      have heq' : u = e'.url := heq
      have hmem : e'.url ∈ s.visited := hsu ▸ mem_successUrls he' hok
      exact hnv (by rw [heq']; exact hmem)
    rcases dfsProcess_log_visited w cfg s u d rest with
      ⟨hl, hv, _⟩ | ⟨hl, hv, _⟩
    · refine ⟨hv ▸ hnd, ?_, ?_⟩
      · rw [hl, hv]
        simpa [successUrls, List.filter_cons] using hsu
      · rw [hl]
        exact noRefetch_cons hnr hfresh
    · refine ⟨?_, ?_, ?_⟩
      · rw [hv]
        exact List.nodup_cons.mpr ⟨hnv, hnd⟩
      · rw [hl, hv]
        simpa [successUrls, List.filter_cons] using hsu
      · rw [hl]
        exact noRefetch_cons hnr hfresh

/-- The dedup invariant holds of every best-first run. -/
theorem bfsRun_dedup (w : World) (cfg : Config) (fuel : Nat) (startUrl : String) :
    DedupInv (bfsRun w cfg fuel startUrl).visited
      (bfsRun w cfg fuel startUrl).fetchLog :=
  bfsLoop_inv w cfg (fun s => DedupInv s.visited s.fetchLog)
    (fun _ _ h hP => bfsStep_dedup h hP) fuel _
    ⟨List.nodup_nil, rfl, fun l₁ l₂ hsplit => by
      cases l₁ with
      | nil => intro e he; cases he
      | cons a t => cases hsplit⟩

/-- The dedup invariant holds of every depth-first run. -/
theorem dfsRun_dedup (w : World) (cfg : Config) (fuel : Nat) (startUrl : String) :
    DedupInv (dfsRun w cfg fuel startUrl).visited
      (dfsRun w cfg fuel startUrl).fetchLog :=
  dfsLoop_inv w cfg (fun s => DedupInv s.visited s.fetchLog)
    (fun _ _ h hP => dfsStep_dedup h hP) fuel _
    ⟨List.nodup_nil, rfl, fun l₁ l₂ hsplit => by
      cases l₁ with
      | nil => intro e he; cases he
      | cons a t => cases hsplit⟩

theorem bfsStep_norm {w : World} {cfg : Config} {start : String} {s s' : BfsState}
    (h : bfsStep w cfg s = some s')
    (hP : (∀ x ∈ s.queue, x.2.1 = start ∨ endsWithSlash x.2.1 = false) ∧
      ∀ u ∈ s.visited, u = start ∨ endsWithSlash u = false) :
    (∀ x ∈ s'.queue, x.2.1 = start ∨ endsWithSlash x.2.1 = false) ∧
      ∀ u ∈ s'.visited, u = start ∨ endsWithSlash u = false := by
  obtain ⟨hq, hv⟩ := hP
  obtain ⟨it, rest, hpop, hlen, hstop, hcase⟩ := bfsStep_eq_some h
  have hrest : rest ⊆ s.queue := heappop_rest_subset hpop
  have hit : it ∈ s.queue := (heappop_spec hpop).1
  rcases hcase with ⟨_, rfl⟩ | ⟨hnv, hd, rfl⟩
  · exact ⟨fun x hx => hq x (hrest hx), by simpa using hv⟩
  · constructor
    · intro x hx
      rcases bfsProcess_queue w cfg s it.2.1 it.2.2 rest with hqe | ⟨page, _, hqe⟩
      · rw [hqe] at hx
        exact hq x (hrest hx)
      · rw [hqe] at hx
        rcases bfsAnchors_queue_sound w it.2.1 it.2.2 page.text cfg.keywords
            (it.2.1 :: s.visited) page.anchors rest (extract_categories page.headings)
            x hx with hxr | ⟨_, _, hslash, _⟩
        · exact hq x (hrest hxr)
        · exact Or.inr hslash
    · intro u hu
      rcases bfsProcess_log_visited w cfg s it.2.1 it.2.2 rest with
        ⟨_, hveq, _⟩ | ⟨_, hveq, _⟩
      · rw [hveq] at hu
        exact hv u hu
      · rw [hveq] at hu
        rcases List.mem_cons.mp hu with rfl | hu'
        · exact hq it hit
        · exact hv u hu'

theorem dfsStep_norm {w : World} {cfg : Config} {start : String} {s s' : DfsState}
    (h : dfsStep w cfg s = some s')
    (hP : (∀ x ∈ s.stack, x.1 = start ∨ endsWithSlash x.1 = false) ∧
      ∀ u ∈ s.visited, u = start ∨ endsWithSlash u = false) :
    (∀ x ∈ s'.stack, x.1 = start ∨ endsWithSlash x.1 = false) ∧
      ∀ u ∈ s'.visited, u = start ∨ endsWithSlash u = false := by
  obtain ⟨hq, hv⟩ := hP
  obtain ⟨u, d, rest, hst, hlen, hstop, hcase⟩ := dfsStep_eq_some h
  have hrest : rest ⊆ s.stack := by
    rw [hst]
    exact fun x hx => List.mem_cons_of_mem _ hx
  have hit : (u, d) ∈ s.stack := by
    rw [hst]
    exact List.mem_cons_self _ _
  rcases hcase with ⟨_, rfl⟩ | ⟨hnv, hd, rfl⟩
  · exact ⟨fun x hx => hq x (hrest hx), by simpa using hv⟩
  · constructor
    · intro x hx
      rcases dfsProcess_stack w cfg s u d rest with hqe | ⟨page, _, hqe⟩
      · rw [hqe] at hx
        exact hq x (hrest hx)
      · rw [hqe] at hx
        rcases dfsAnchors_stack_sound w u d (u :: s.visited) page.anchors rest
            (extract_categories page.headings) x hx with hxr | ⟨_, hslash, _⟩
        · exact hq x (hrest hxr)
        · exact Or.inr hslash
    · intro v hv'
      rcases dfsProcess_log_visited w cfg s u d rest with
        ⟨_, hveq, _⟩ | ⟨_, hveq, _⟩
      · rw [hveq] at hv'
        exact hv v hv'
      · rw [hveq] at hv'
        rcases List.mem_cons.mp hv' with rfl | hu'
        · exact hq (v, d) hit
        · exact hv v hu'

/-- Every URL in the visited set of a best-first run is the seed itself or
carries no trailing slash. -/
theorem bfsRun_norm (w : World) (cfg : Config) (fuel : Nat) (startUrl : String) :
    ∀ u ∈ (bfsRun w cfg fuel startUrl).visited,
      u = startUrl ∨ endsWithSlash u = false :=
  (bfsLoop_inv w cfg
    (fun s => (∀ x ∈ s.queue, x.2.1 = startUrl ∨ endsWithSlash x.2.1 = false) ∧
      ∀ u ∈ s.visited, u = startUrl ∨ endsWithSlash u = false)
    (fun _ _ h hP => bfsStep_norm h hP) fuel _
    (by
      refine ⟨?_, ?_⟩
      · intro x hx
        rcases List.mem_cons.mp hx with rfl | hx'
        · exact Or.inl rfl
        · cases hx'
      · intro u hu
        cases hu)).2

/-- Every URL in the visited set of a depth-first run is the seed itself or
carries no trailing slash. -/
theorem dfsRun_norm (w : World) (cfg : Config) (fuel : Nat) (startUrl : String) :
    ∀ u ∈ (dfsRun w cfg fuel startUrl).visited,
      u = startUrl ∨ endsWithSlash u = false :=
  (dfsLoop_inv w cfg
    (fun s => (∀ x ∈ s.stack, x.1 = startUrl ∨ endsWithSlash x.1 = false) ∧
      ∀ u ∈ s.visited, u = startUrl ∨ endsWithSlash u = false)
    (fun _ _ h hP => dfsStep_norm h hP) fuel _
    (by
      refine ⟨?_, ?_⟩
      · intro x hx
        rcases List.mem_cons.mp hx with rfl | hx'
        · exact Or.inl rfl
        · cases hx'
      · intro u hu
        cases hu)).2

/-- The progress-invocation invariant: with a callback supplied there is
exactly one invocation per fetch-attempted iteration, and every invocation
passes `max_pages` as its second argument. -/
def ProgressInv (cfg : Config) (plog : List (Nat × Nat))
    (flog : List FetchEntry) : Prop :=
  (cfg.hasProgress = true → plog.length = flog.length) ∧
    ∀ p ∈ plog, p.2 = cfg.maxPages

theorem progressInv_push {cfg : Config} {plog : List (Nat × Nat)}
    {flog : List FetchEntry} (n : Nat) (e : FetchEntry)
    (hP : ProgressInv cfg plog flog) :
    ProgressInv cfg (pushProg cfg n plog) (e :: flog) := by
  obtain ⟨hlen, hmem⟩ := hP
  by_cases hhp : cfg.hasProgress = true
  · constructor
    · intro _
      rw [pushProg, if_pos hhp]
      simp [hlen hhp]
    · intro p hp
      rw [pushProg, if_pos hhp] at hp
      rcases List.mem_cons.mp hp with rfl | hp'
      · rfl
      · exact hmem p hp'
  · constructor
    · intro hc
      exact absurd hc hhp
    · intro p hp
      rw [pushProg, if_neg hhp] at hp
      exact hmem p hp

theorem bfsStep_progress {w : World} {cfg : Config} {s s' : BfsState}
    (h : bfsStep w cfg s = some s')
    (hP : ProgressInv cfg s.progressLog s.fetchLog) :
    ProgressInv cfg s'.progressLog s'.fetchLog := by
  obtain ⟨it, rest, hpop, hlen, hstop, hcase⟩ := bfsStep_eq_some h
  rcases hcase with ⟨_, rfl⟩ | ⟨_, _, rfl⟩
  · exact hP
  · obtain ⟨n, b, hpl, hfl⟩ := bfsProcess_progress w cfg s it.2.1 it.2.2 rest
    rw [hpl, hfl]
    exact progressInv_push n _ hP

theorem dfsStep_progress {w : World} {cfg : Config} {s s' : DfsState}
    (h : dfsStep w cfg s = some s')
    (hP : ProgressInv cfg s.progressLog s.fetchLog) :
    ProgressInv cfg s'.progressLog s'.fetchLog := by
  obtain ⟨u, d, rest, hst, hlen, hstop, hcase⟩ := dfsStep_eq_some h
  rcases hcase with ⟨_, rfl⟩ | ⟨_, _, rfl⟩
  · exact hP
  · obtain ⟨n, b, hpl, hfl⟩ := dfsProcess_progress w cfg s u d rest
    rw [hpl, hfl]
    exact progressInv_push n _ hP

/-- The progress invariant holds of every best-first run. -/
theorem bfsRun_progress (w : World) (cfg : Config) (fuel : Nat)
    (startUrl : String) :
    ProgressInv cfg (bfsRun w cfg fuel startUrl).progressLog
      (bfsRun w cfg fuel startUrl).fetchLog :=
  bfsLoop_inv w cfg (fun s => ProgressInv cfg s.progressLog s.fetchLog)
    (fun _ _ h hP => bfsStep_progress h hP) fuel _
    ⟨fun _ => rfl, fun p hp => by cases hp⟩

/-- The progress invariant holds of every depth-first run. -/
theorem dfsRun_progress (w : World) (cfg : Config) (fuel : Nat)
    (startUrl : String) :
    ProgressInv cfg (dfsRun w cfg fuel startUrl).progressLog
      (dfsRun w cfg fuel startUrl).fetchLog :=
  dfsLoop_inv w cfg (fun s => ProgressInv cfg s.progressLog s.fetchLog)
    (fun _ _ h hP => dfsStep_progress h hP) fuel _
    ⟨fun _ => rfl, fun p hp => by cases hp⟩

theorem bfsStep_error_not_visited {w : World} {cfg : Config} {X msg : String}
    (hf : w.fetch X = .error msg) {s s' : BfsState}
    (h : bfsStep w cfg s = some s') (hP : X ∉ s.visited) : X ∉ s'.visited := by
  obtain ⟨it, rest, hpop, hlen, hstop, hcase⟩ := bfsStep_eq_some h
  rcases hcase with ⟨_, rfl⟩ | ⟨_, _, rfl⟩
  · simpa using hP
  · rcases bfsProcess_log_visited w cfg s it.2.1 it.2.2 rest with
      ⟨_, hv, _⟩ | ⟨_, hv, page, hok⟩
    · rw [hv]; exact hP
    · rw [hv]
      intro hc
      rcases List.mem_cons.mp hc with rfl | hc'
      · rw [hf] at hok
        cases hok
      · exact hP hc'

theorem dfsStep_error_not_visited {w : World} {cfg : Config} {X msg : String}
    (hf : w.fetch X = .error msg) {s s' : DfsState}
    (h : dfsStep w cfg s = some s') (hP : X ∉ s.visited) : X ∉ s'.visited := by
  obtain ⟨u, d, rest, hst, hlen, hstop, hcase⟩ := dfsStep_eq_some h
  rcases hcase with ⟨_, rfl⟩ | ⟨_, _, rfl⟩
  · simpa using hP
  · rcases dfsProcess_log_visited w cfg s u d rest with
      ⟨_, hv, _⟩ | ⟨_, hv, page, hok⟩
    · rw [hv]; exact hP
    · rw [hv]
      intro hc
      rcases List.mem_cons.mp hc with rfl | hc'
      · rw [hf] at hok
        cases hok
      · exact hP hc'

/-- A URL whose fetch fails is never in the visited set of a best-first run. -/
theorem bfsRun_error_not_visited {w : World} {X msg : String}
    (hf : w.fetch X = .error msg) (cfg : Config) (fuel : Nat)
    (startUrl : String) : X ∉ (bfsRun w cfg fuel startUrl).visited :=
  bfsLoop_inv w cfg (fun s => X ∉ s.visited)
    (fun _ _ h hP => bfsStep_error_not_visited hf h hP) fuel _ (by intro hc; cases hc)

/-- A URL whose fetch fails is never in the visited set of a depth-first run. -/
theorem dfsRun_error_not_visited {w : World} {X msg : String}
    (hf : w.fetch X = .error msg) (cfg : Config) (fuel : Nat)
    (startUrl : String) : X ∉ (dfsRun w cfg fuel startUrl).visited :=
  dfsLoop_inv w cfg (fun s => X ∉ s.visited)
    (fun _ _ h hP => dfsStep_error_not_visited hf h hP) fuel _ (by intro hc; cases hc)

/-! ### One-step loop equations and degenerate configurations -/

theorem bfsStep_maxPages_zero {w : World} {cfg : Config} (hz : cfg.maxPages = 0)
    (s : BfsState) : bfsStep w cfg s = none := by
  unfold bfsStep
  cases hp : heappop s.queue with
  | none => rfl
  | some pr =>
    obtain ⟨it, rest⟩ := pr
    simp [hz]

theorem dfsStep_maxPages_zero {w : World} {cfg : Config} (hz : cfg.maxPages = 0)
    (s : DfsState) : dfsStep w cfg s = none := by
  unfold dfsStep
  cases hst : s.stack with
  | nil => rfl
  | cons p rest =>
    obtain ⟨u, d⟩ := p
    simp [hz]

/-- With `max_pages = 0` the `while` condition fails immediately: the loop
body never runs, whatever the state. -/
theorem bfsLoop_maxPages_zero {w : World} {cfg : Config} (hz : cfg.maxPages = 0)
    (fuel : Nat) (s : BfsState) : bfsLoop w cfg fuel s = s := by
  cases fuel with
  | zero => rfl
  | succ n => simp [bfsLoop, bfsStep_maxPages_zero hz]

/-- Analogue for `dfs_crawl` of `bfsLoop_maxPages_zero`. -/
theorem dfsLoop_maxPages_zero {w : World} {cfg : Config} (hz : cfg.maxPages = 0)
    (fuel : Nat) (s : DfsState) : dfsLoop w cfg fuel s = s := by
  cases fuel with
  | zero => rfl
  | succ n => simp [dfsLoop, dfsStep_maxPages_zero hz]

/-- When the stop event is observed set at the top of an iteration, the run
terminates at once with the current state. -/
theorem bfsLoop_stop_eq {w : World} {cfg : Config} {s : BfsState} (fuel : Nat)
    (_hq : s.queue ≠ []) (hlen : s.visited.length < cfg.maxPages)
    (hstop : w.stop s.iter = true) : bfsLoop w cfg (fuel + 1) s = s := by
  have hstep : bfsStep w cfg s = none := by
    unfold bfsStep
    cases hp : heappop s.queue with
    | none => rfl
    | some pr =>
      obtain ⟨it, rest⟩ := pr
      have h1 : ¬ cfg.maxPages ≤ s.visited.length := by omega
      simp [h1, hstop]
  simp [bfsLoop, hstep]

/-- Analogue for `dfs_crawl` of `bfsLoop_stop_eq`. -/
theorem dfsLoop_stop_eq {w : World} {cfg : Config} {s : DfsState} (fuel : Nat)
    (_hq : s.stack ≠ []) (hlen : s.visited.length < cfg.maxPages)
    (hstop : w.stop s.iter = true) : dfsLoop w cfg (fuel + 1) s = s := by
  have hstep : dfsStep w cfg s = none := by
    unfold dfsStep
    cases hst : s.stack with
    | nil => rfl
    | cons p rest =>
      obtain ⟨u, d⟩ := p
      have h1 : ¬ cfg.maxPages ≤ s.visited.length := by omega
      simp [h1, hstop]
  simp [dfsLoop, hstep]

/-- A popped item that is already visited or too deep is discarded by
`continue`: only the frontier and the iteration counter change, and in
particular no progress invocation is recorded. -/
theorem bfsLoop_discard_eq {w : World} {cfg : Config} {s : BfsState}
    {it : QItem} {rest : List QItem} (fuel : Nat)
    (hpop : heappop s.queue = some (it, rest))
    (hlen : s.visited.length < cfg.maxPages) (hstop : w.stop s.iter = false)
    (hdis : it.2.1 ∈ s.visited ∨ cfg.maxDepth < it.2.2) :
    bfsLoop w cfg (fuel + 1) s =
      bfsLoop w cfg fuel { s with queue := rest, iter := s.iter + 1 } := by
  have hstep : bfsStep w cfg s = some { s with queue := rest, iter := s.iter + 1 } := by
    unfold bfsStep
    rw [hpop]
    have h1 : ¬ cfg.maxPages ≤ s.visited.length := by omega
    simp [h1, hstop, hdis]
  simp [bfsLoop, hstep]

/-- Analogue for `dfs_crawl` of `bfsLoop_discard_eq`. -/
theorem dfsLoop_discard_eq {w : World} {cfg : Config} {s : DfsState}
    {u : String} {d : Nat} {rest : List (String × Nat)} (fuel : Nat)
    (hst : s.stack = (u, d) :: rest)
    (hlen : s.visited.length < cfg.maxPages) (hstop : w.stop s.iter = false)
    (hdis : u ∈ s.visited ∨ cfg.maxDepth < d) :
    dfsLoop w cfg (fuel + 1) s =
      dfsLoop w cfg fuel { s with stack := rest, iter := s.iter + 1 } := by
  have hstep : dfsStep w cfg s = some { s with stack := rest, iter := s.iter + 1 } := by
    unfold dfsStep
    rw [hst]
    have h1 : ¬ cfg.maxPages ≤ s.visited.length := by omega
    simp [h1, hstop, hdis]
  simp [dfsLoop, hstep]

/-- A failing fetch records the error and the failed attempt, leaves the
visited set and the results untouched, and the loop continues with the rest
of the frontier. -/
theorem bfsLoop_error_eq {w : World} {cfg : Config} {s : BfsState}
    {k : Nat} {X : String} {d : Nat} {rest : List QItem} {msg : String}
    (fuel : Nat) (hpop : heappop s.queue = some ((k, X, d), rest))
    (hlen : s.visited.length < cfg.maxPages) (hstop : w.stop s.iter = false)
    (hnv : X ∉ s.visited) (hd : d ≤ cfg.maxDepth)
    (hf : w.fetch X = .error msg) :
    bfsLoop w cfg (fuel + 1) s =
      bfsLoop w cfg fuel
        { s with
          queue := rest
          errors := (X, msg) :: s.errors
          fetchLog := ⟨X, d, false⟩ :: s.fetchLog
          progressLog := pushProg cfg s.visited.length s.progressLog
          iter := s.iter + 1 } := by
  have hstep : bfsStep w cfg s = some (bfsProcess w cfg s X d rest) := by
    unfold bfsStep
    rw [hpop]
    have h1 : ¬ cfg.maxPages ≤ s.visited.length := by omega
    have h3 : ¬ (X ∈ s.visited ∨ cfg.maxDepth < d) := by
      rintro (hc | hc)
      · exact hnv hc
      · omega
    simp [h1, hstop, h3]
  rw [bfsProcess_error cfg s d rest hf] at hstep
  simp [bfsLoop, hstep]

/-- Analogue for `dfs_crawl` of `bfsLoop_error_eq`. -/
theorem dfsLoop_error_eq {w : World} {cfg : Config} {s : DfsState}
    {X : String} {d : Nat} {rest : List (String × Nat)} {msg : String}
    (fuel : Nat) (hst : s.stack = (X, d) :: rest)
    (hlen : s.visited.length < cfg.maxPages) (hstop : w.stop s.iter = false)
    (hnv : X ∉ s.visited) (hd : d ≤ cfg.maxDepth)
    (hf : w.fetch X = .error msg) :
    dfsLoop w cfg (fuel + 1) s =
      dfsLoop w cfg fuel
        { s with
          stack := rest
          errors := (X, msg) :: s.errors
          fetchLog := ⟨X, d, false⟩ :: s.fetchLog
          progressLog := pushProg cfg s.visited.length s.progressLog
          iter := s.iter + 1 } := by
  have hstep : dfsStep w cfg s = some (dfsProcess w cfg s X d rest) := by
    unfold dfsStep
    rw [hst]
    have h1 : ¬ cfg.maxPages ≤ s.visited.length := by omega
    have h3 : ¬ (X ∈ s.visited ∨ cfg.maxDepth < d) := by
      rintro (hc | hc)
      · exact hnv hc
      · omega
    simp [h1, hstop, h3]
  rw [dfsProcess_error cfg s d rest hf] at hstep
  simp [dfsLoop, hstep]

theorem successUrls_mem {log : List FetchEntry} {u : String}
    (h : u ∈ successUrls log) : ∃ e ∈ log, e.url = u ∧ e.ok = true := by
  obtain ⟨e, he, heq⟩ := List.mem_map.mp h
  obtain ⟨hel, hok⟩ := List.mem_filter.mp he
  exact ⟨e, hel, heq, by simpa using hok⟩

/-! ### The claims -/

/-- Claim C1: for every run of either traversal strategy, with any fetch
outcomes and any cancellation timing, the size of the visited set never
exceeds `max_pages` — in particular it is bounded at termination, i.e. after
any amount of fuel. -/
theorem claim_C1_visited_le_maxPages :
    ∀ (w : World) (cfg : Config) (fuel : Nat) (startUrl : String),
      (bfsRun w cfg fuel startUrl).visited.length ≤ cfg.maxPages ∧
      (dfsRun w cfg fuel startUrl).visited.length ≤ cfg.maxPages :=
  fun w cfg fuel startUrl =>
    ⟨bfsRun_visited_le w cfg fuel startUrl, dfsRun_visited_le w cfg fuel startUrl⟩

/-- Concrete instance of claim C1 on the chain fixture. -/
theorem claim_C1_witness :
    (bfsRun chainWorld chainCfg 10 "a").visited.length ≤ chainCfg.maxPages :=
  (claim_C1_visited_le_maxPages chainWorld chainCfg 10 "a").1

/-- Claim C2: no URL is ever fetched (hence never added to the visited set)
at an enqueued depth exceeding `max_depth`, in either strategy; every
visited URL stems from a successful fetch recorded in the log; and the
depth-first crawl of the 3-node chain a → b → c with `max_depth = 1` visits
exactly a and b, discarding c. -/
theorem claim_C2_depth_limit :
    (∀ (w : World) (cfg : Config) (fuel : Nat) (startUrl : String),
      (∀ e ∈ (bfsRun w cfg fuel startUrl).fetchLog, e.depth ≤ cfg.maxDepth) ∧
      (∀ u ∈ (bfsRun w cfg fuel startUrl).visited,
        ∃ e ∈ (bfsRun w cfg fuel startUrl).fetchLog, e.url = u ∧ e.ok = true) ∧
      (∀ e ∈ (dfsRun w cfg fuel startUrl).fetchLog, e.depth ≤ cfg.maxDepth) ∧
      (∀ u ∈ (dfsRun w cfg fuel startUrl).visited,
        ∃ e ∈ (dfsRun w cfg fuel startUrl).fetchLog, e.url = u ∧ e.ok = true)) ∧
    (dfsRun chainWorld chainCfg 10 "a").visited = ["b", "a"] ∧
    (dfsRun chainWorld chainCfg 10 "a").fetchLog.map (·.url) = ["b", "a"] ∧
    "c" ∉ (dfsRun chainWorld chainCfg 10 "a").visited := by
  refine ⟨?_, by decide, by decide, by decide⟩
  intro w cfg fuel startUrl
  refine ⟨bfsRun_depth_le w cfg fuel startUrl, ?_,
    dfsRun_depth_le w cfg fuel startUrl, ?_⟩
  · intro u hu
    exact successUrls_mem ((bfsRun_dedup w cfg fuel startUrl).2.1.symm ▸ hu)
  · intro u hu
    exact successUrls_mem ((dfsRun_dedup w cfg fuel startUrl).2.1.symm ▸ hu)

/-- Concrete instance of claim C2: the fetch of b in the chain run happened
at depth 1, within the limit. -/
theorem claim_C2_witness :
    (⟨"b", 1, true⟩ : FetchEntry).depth ≤ chainCfg.maxDepth :=
  (claim_C2_depth_limit.1 chainWorld chainCfg 10 "a").1 ⟨"b", 1, true⟩ (by decide)

/-- Claim C3: in both strategies each URL enters the visited set at most
once and is never re-fetched after a successful fetch; a popped item whose
URL is already visited is rejected at pop time (`continue` touching only
the frontier and the iteration counter); and a URL can sit in the frontier
multiple times before any copy is popped, as the duplicate-link fixture
shows. -/
theorem claim_C3_visited_once :
    (∀ (w : World) (cfg : Config) (fuel : Nat) (startUrl : String),
      (bfsRun w cfg fuel startUrl).visited.Nodup ∧
      successUrls (bfsRun w cfg fuel startUrl).fetchLog =
        (bfsRun w cfg fuel startUrl).visited ∧
      noRefetch (bfsRun w cfg fuel startUrl).fetchLog ∧
      (dfsRun w cfg fuel startUrl).visited.Nodup ∧
      successUrls (dfsRun w cfg fuel startUrl).fetchLog =
        (dfsRun w cfg fuel startUrl).visited ∧
      noRefetch (dfsRun w cfg fuel startUrl).fetchLog) ∧
    (∀ (w : World) (cfg : Config) (s : BfsState) (it : QItem)
      (rest : List QItem) (fuel : Nat),
      heappop s.queue = some (it, rest) →
      s.visited.length < cfg.maxPages → w.stop s.iter = false →
      it.2.1 ∈ s.visited →
      bfsLoop w cfg (fuel + 1) s =
        bfsLoop w cfg fuel { s with queue := rest, iter := s.iter + 1 }) ∧
    (∀ (w : World) (cfg : Config) (s : DfsState) (u : String) (d : Nat)
      (rest : List (String × Nat)) (fuel : Nat),
      s.stack = (u, d) :: rest →
      s.visited.length < cfg.maxPages → w.stop s.iter = false →
      u ∈ s.visited →
      dfsLoop w cfg (fuel + 1) s =
        dfsLoop w cfg fuel { s with stack := rest, iter := s.iter + 1 }) ∧
    (bfsRun dupWorld plainCfg 1 "s").queue = [(1, "b", 1), (1, "b", 1)] ∧
    (bfsRun dupWorld plainCfg 10 "s").visited = ["b", "s"] := by
  refine ⟨?_, ?_, ?_, by decide, by decide⟩
  · intro w cfg fuel startUrl
    obtain ⟨h1, h2, h3⟩ := bfsRun_dedup w cfg fuel startUrl
    obtain ⟨h4, h5, h6⟩ := dfsRun_dedup w cfg fuel startUrl
    exact ⟨h1, h2, h3, h4, h5, h6⟩
  · intro w cfg s it rest fuel hpop hlen hstop hv
    exact bfsLoop_discard_eq fuel hpop hlen hstop (Or.inl hv)
  · intro w cfg s u d rest fuel hst hlen hstop hv
    exact dfsLoop_discard_eq fuel hst hlen hstop (Or.inl hv)

/-- Concrete instance of claim C3 on the duplicate-link fixture. -/
theorem claim_C3_witness :
    (bfsRun dupWorld plainCfg 10 "s").visited.Nodup :=
  (claim_C3_visited_once.1 dupWorld plainCfg 10 "s").1

/-- Claim C4: in best-first mode every link pushed by the anchor loop
carries priority `keyword_heuristic_score(page_text, keywords)` when a
keyword list is supplied and the character length of the link otherwise; every
unvisited discovered link is indeed pushed with that priority at depth
`d + 1`; a keyword occurring three times contributes 3; and the frontier
pops the lowest priority first, so without keywords a length-5 link is
dequeued before a length-50 one. -/
theorem claim_C4_push_priority :
    (∀ (w : World) (u : String) (d : Nat) (pageText : String)
      (keywords : List String) (visited : List String) (anchors : List Anchor)
      (q : List QItem) (cats : Cats) (x : QItem),
      x ∈ (bfsAnchors w u d pageText keywords visited anchors q cats).1 →
      x ∈ q ∨ x.1 = pushScore pageText keywords x.2.1 ∧ x.2.2 = d + 1) ∧
    (∀ (w : World) (u : String) (d : Nat) (pageText : String)
      (keywords : List String) (visited : List String) (anchors : List Anchor)
      (q : List QItem) (cats : Cats) (a : Anchor),
      a ∈ anchors → rstripSlash (w.resolve u a.href) ∉ visited →
      (pushScore pageText keywords (rstripSlash (w.resolve u a.href)),
        rstripSlash (w.resolve u a.href), d + 1) ∈
        (bfsAnchors w u d pageText keywords visited anchors q cats).1) ∧
    (∀ (pageText : String) (link : String),
      pushScore pageText [] link = link.length) ∧
    keyword_heuristic_score "xshopSHOPshop" ["shop"] = 3 ∧
    heappop [(50, "bbbbbbbbbbbbbbbbbbbbbbbbbbbbbbbbbbbbbbbbbbbbbbbbbb", 1),
        (5, "aaaaa", 1)] =
      some ((5, "aaaaa", 1),
        [(50, "bbbbbbbbbbbbbbbbbbbbbbbbbbbbbbbbbbbbbbbbbbbbbbbbbb", 1)]) := by
  refine ⟨?_, ?_, fun _ _ => rfl, by decide, by decide⟩
  · intro w u d pageText keywords visited anchors q cats x hx
    rcases bfsAnchors_queue_sound w u d pageText keywords visited anchors q cats
      x hx with h | ⟨h1, h2, _, _⟩
    · exact Or.inl h
    · exact Or.inr ⟨h1, h2⟩
  · intro w u d pageText keywords visited anchors q cats a ha hnv
    exact bfsAnchors_queue_complete w u d pageText keywords visited anchors q
      cats a ha hnv

/-- Concrete instance of claim C4: the link b, of length 1, is pushed with
priority 1 by the anchor loop. -/
theorem claim_C4_witness :
    ((pushScore "" [] "b", "b", 1) : QItem) ∈
      (bfsAnchors dupWorld "s" 0 "" [] ["s"] [⟨"b", ""⟩] [] []).1 :=
  claim_C4_push_priority.2.1 dupWorld "s" 0 "" [] ["s"] [⟨"b", ""⟩] [] []
    ⟨"b", ""⟩ (by decide) (by decide)

/-- Claim C5: when the fetch of a popped URL fails, that URL is never added
to the visited set of either strategy, an error entry pairing the URL with
the error detail is recorded, and the loop goes on with the remaining
frontier — the run is not aborted. -/
theorem claim_C5_fetch_error :
    ∀ (w : World) (X msg : String), w.fetch X = .error msg →
      (∀ (cfg : Config) (fuel : Nat) (startUrl : String),
        X ∉ (bfsRun w cfg fuel startUrl).visited ∧
        X ∉ (dfsRun w cfg fuel startUrl).visited) ∧
      (∀ (cfg : Config) (s : BfsState) (k d : Nat) (rest : List QItem)
        (fuel : Nat),
        heappop s.queue = some ((k, X, d), rest) →
        s.visited.length < cfg.maxPages → w.stop s.iter = false →
        X ∉ s.visited → d ≤ cfg.maxDepth →
        bfsLoop w cfg (fuel + 1) s =
          bfsLoop w cfg fuel
            { s with
              queue := rest
              errors := (X, msg) :: s.errors
              fetchLog := ⟨X, d, false⟩ :: s.fetchLog
              progressLog := pushProg cfg s.visited.length s.progressLog
              iter := s.iter + 1 }) ∧
      (∀ (cfg : Config) (s : DfsState) (d : Nat) (rest : List (String × Nat))
        (fuel : Nat),
        s.stack = (X, d) :: rest →
        s.visited.length < cfg.maxPages → w.stop s.iter = false →
        X ∉ s.visited → d ≤ cfg.maxDepth →
        dfsLoop w cfg (fuel + 1) s =
          dfsLoop w cfg fuel
            { s with
              stack := rest
              errors := (X, msg) :: s.errors
              fetchLog := ⟨X, d, false⟩ :: s.fetchLog
              progressLog := pushProg cfg s.visited.length s.progressLog
              iter := s.iter + 1 }) := by
  intro w X msg hf
  refine ⟨?_, ?_, ?_⟩
  · intro cfg fuel startUrl
    exact ⟨bfsRun_error_not_visited hf cfg fuel startUrl,
      dfsRun_error_not_visited hf cfg fuel startUrl⟩
  · intro cfg s k d rest fuel hpop hlen hstop hnv hd
    exact bfsLoop_error_eq fuel hpop hlen hstop hnv hd hf
  · intro cfg s d rest fuel hst hlen hstop hnv hd
    exact dfsLoop_error_eq fuel hst hlen hstop hnv hd hf

/-- Concrete instance of claim C5: in the all-failing world the seed is
never visited. -/
theorem claim_C5_witness : "x" ∉ (bfsRun failWorld plainCfg 10 "x").visited :=
  ((claim_C5_fetch_error failWorld "x" "invalid url" rfl).1 plainCfg 10 "x").1

/-- Claim C6: the stop event is polled at the top of each iteration, and
when it is observed set the run ends at once — no further item is popped or
processed — returning the results accumulated so far as its ordinary return
value. -/
theorem claim_C6_cancellation :
    ∀ (w : World) (cfg : Config) (fuel : Nat),
      (∀ s : BfsState, s.queue ≠ [] → s.visited.length < cfg.maxPages →
        w.stop s.iter = true →
        bfsLoop w cfg (fuel + 1) s = s ∧
        (bfsLoop w cfg (fuel + 1) s).categorized = s.categorized) ∧
      (∀ s : DfsState, s.stack ≠ [] → s.visited.length < cfg.maxPages →
        w.stop s.iter = true →
        dfsLoop w cfg (fuel + 1) s = s ∧
        (dfsLoop w cfg (fuel + 1) s).categorized = s.categorized) := by
  intro w cfg fuel
  constructor
  · intro s hq hlen hstop
    have h := bfsLoop_stop_eq fuel hq hlen hstop
    exact ⟨h, by rw [h]⟩
  · intro s hq hlen hstop
    have h := dfsLoop_stop_eq fuel hq hlen hstop
    exact ⟨h, by rw [h]⟩

/-- Concrete instance of claim C6: with the stop event set from the start,
the run ends in the initial state. -/
theorem claim_C6_witness :
    bfsLoop stopWorld plainCfg 1 (initBfs "x") = initBfs "x" :=
  ((claim_C6_cancellation stopWorld plainCfg 0).1 (initBfs "x") (by decide)
    (by decide) rfl).1

/-- Claim C7 as stated is false: the seed URL is enqueued verbatim, without
`rstrip("/")`, so a seed ending in a slash is stored in the visited set
with its trailing slash. -/
theorem claim_C7_counterexample :
    "a/" ∈ (bfsRun slashWorld plainCfg 10 "a/").visited ∧
    endsWithSlash "a/" = true := by decide

/-- Claim C7 amended: every URL in the visited set of either strategy is
the seed itself or ends in no slash — only the seed escapes
normalization. -/
theorem claim_C7_amended :
    ∀ (w : World) (cfg : Config) (fuel : Nat) (startUrl : String),
      (∀ u ∈ (bfsRun w cfg fuel startUrl).visited,
        u = startUrl ∨ endsWithSlash u = false) ∧
      (∀ u ∈ (dfsRun w cfg fuel startUrl).visited,
        u = startUrl ∨ endsWithSlash u = false) :=
  fun w cfg fuel startUrl =>
    ⟨bfsRun_norm w cfg fuel startUrl, dfsRun_norm w cfg fuel startUrl⟩

/-- Concrete instance of amended claim C7. -/
theorem claim_C7_witness :
    "b" = "a" ∨ endsWithSlash "b" = false :=
  (claim_C7_amended chainWorld chainCfg 10 "a").1 "b" (by decide)

/-- Claim C8 as stated is false: among equally scored items the frontier
does not pop in insertion order but by Python tuple comparison, i.e. by the
URL string: b was inserted first, yet the later-inserted a is popped first;
end to end, page s discovers b before a with equal scores and a is still
fetched before b. -/
theorem claim_C8_counterexample :
    heappop [(0, "b", 1), (0, "a", 1)] = some ((0, "a", 1), [(0, "b", 1)]) ∧
    (bfsRun tieWorld tieCfg 10 "s").fetchLog.map (·.url) = ["b", "a", "s"] := by
  decide

/-- Claim C8 amended: the best-first frontier pops a minimum of the
lexicographic order on the whole tuple (score, url, depth): ties on score
are broken by the URL string, then by depth — not by insertion order. -/
theorem claim_C8_amended :
    ∀ (q : List QItem) (m : QItem) (rest : List QItem),
      heappop q = some (m, rest) →
      m ∈ q ∧ rest = q.erase m ∧ ∀ x ∈ q, qLe m x = true :=
  fun _ _ _ h => heappop_spec h

/-- Concrete instance of amended claim C8. -/
theorem claim_C8_witness :
    ((0, "a", 1) : QItem) ∈ [((0, "b", 1) : QItem), (0, "a", 1)] :=
  (claim_C8_amended [(0, "b", 1), (0, "a", 1)] (0, "a", 1) [(0, "b", 1)]
    (by decide)).1

/-- Claim C9 as stated is false: an iteration that discards its popped item
(already visited or too deep) hits `continue`, which skips the
`progress_callback` call at the bottom of the loop body — the
duplicate-link run executes three iterations but records only two progress
invocations. -/
theorem claim_C9_counterexample :
    plainCfg.hasProgress = true ∧
    (bfsRun dupWorld plainCfg 10 "s").iter = 3 ∧
    (bfsRun dupWorld plainCfg 10 "s").progressLog = [(2, 10), (1, 10)] := by
  decide

/-- Claim C9 amended: the progress callback is invoked exactly once per
fetch-attempted iteration (successful or failed) with
`(len(visited), max_pages)`, and not after iterations discarded by the
visited/depth check. -/
theorem claim_C9_amended :
    ∀ (w : World) (cfg : Config) (fuel : Nat) (startUrl : String),
      (cfg.hasProgress = true →
        (bfsRun w cfg fuel startUrl).progressLog.length =
          (bfsRun w cfg fuel startUrl).fetchLog.length ∧
        (dfsRun w cfg fuel startUrl).progressLog.length =
          (dfsRun w cfg fuel startUrl).fetchLog.length) ∧
      (∀ p ∈ (bfsRun w cfg fuel startUrl).progressLog, p.2 = cfg.maxPages) ∧
      ∀ p ∈ (dfsRun w cfg fuel startUrl).progressLog, p.2 = cfg.maxPages := by
  intro w cfg fuel startUrl
  obtain ⟨h1, h2⟩ := bfsRun_progress w cfg fuel startUrl
  obtain ⟨h3, h4⟩ := dfsRun_progress w cfg fuel startUrl
  exact ⟨fun hp => ⟨h1 hp, h3 hp⟩, h2, h4⟩

/-- Concrete instance of amended claim C9. -/
theorem claim_C9_witness :
    (bfsRun dupWorld plainCfg 10 "s").progressLog.length =
      (bfsRun dupWorld plainCfg 10 "s").fetchLog.length :=
  ((claim_C9_amended dupWorld plainCfg 10 "s").1 rfl).1

/-- Claim C10 as stated is false: the code performs no configuration
validation — with an empty seed URL the orchestration loop starts and a
fetch of the empty URL is issued (failing and being logged like any
per-page error), rather than any error being surfaced before the run. -/
theorem claim_C10_counterexample :
    (bfsRun failWorld plainCfg 2 "").fetchLog = [⟨"", 0, false⟩] ∧
    (bfsRun failWorld plainCfg 2 "").errors = [("", "invalid url")] := by decide

/-- Claim C10 amended: no validation exists; an invalid `max_pages` (≤ 0)
merely makes the `while` condition fail at once, so the loop body never
runs, no fetch is issued and the empty result is returned normally, while
an empty seed URL is crawled like any other URL. -/
theorem claim_C10_amended :
    ∀ (w : World) (cfg : Config) (fuel : Nat) (startUrl : String)
      (s : BfsState) (t : DfsState),
      cfg.maxPages = 0 →
      bfsLoop w cfg fuel s = s ∧ dfsLoop w cfg fuel t = t ∧
      (bfsRun w cfg fuel startUrl).fetchLog = [] ∧
      (dfsRun w cfg fuel startUrl).fetchLog = [] ∧
      bfs_crawl w cfg fuel startUrl = [] ∧
      dfs_crawl w cfg fuel startUrl = [] := by
  intro w cfg fuel startUrl s t hz
  refine ⟨bfsLoop_maxPages_zero hz fuel s, dfsLoop_maxPages_zero hz fuel t,
    ?_, ?_, ?_, ?_⟩
  · rw [bfsRun, bfsLoop_maxPages_zero hz]; rfl
  · rw [dfsRun, dfsLoop_maxPages_zero hz]; rfl
  · rw [bfs_crawl, bfsRun, bfsLoop_maxPages_zero hz]; rfl
  · rw [dfs_crawl, dfsRun, dfsLoop_maxPages_zero hz]; rfl

/-- Concrete instance of amended claim C10. -/
theorem claim_C10_witness :
    bfs_crawl failWorld zeroCfg 5 "x" = [] :=
  (claim_C10_amended failWorld zeroCfg 5 "x" (initBfs "x") (initDfs "x")
    rfl).2.2.2.2.1

end WebCrawler
